import Mathlib

/-!
# Verification of the external sort-and-deduplicate engine

Shallow embedding of the core engine of `Full_Utills_AddressesFile.py`
(`SortingChecker.is_file_sorted`, `ExternalSorter._create_sorted_chunks`,
`ExternalSorter._merge_chunks`, `ExternalSorter._auto_verify_sorting`,
`ExternalSorter.external_sort`).

A text line is modelled as a `List Char` (Python compares strings
lexicographically by code point, which coincides with the linear order on
`List Char`).  A file is a `List Line`: the list of its newline-delimited
lines, newline terminators not included.  A file-system slot that may or may
not hold a file is an `Option (List Line)` (`none` = the path does not exist).

Python's `str.strip()` is modelled by `pyStrip` over the ASCII whitespace
characters (space, tab, newline, carriage return, vertical tab, form feed);
Unicode whitespace is not modelled, which is irrelevant to every claim here.
`len(line.encode('utf-8'))` is modelled by `utf8Len` via `Char.utf8Size`.
Python's `list.sort()` is modelled by `List.insertionSort (· ≤ ·)`: on a
linear order the sorted permutation of a list is unique, so any correct
sorting algorithm is extensionally the one Python uses.
-/

namespace DupRemoval

/-- A record/line: the characters of one newline-delimited line. -/
abbrev Line := List Char

/-- The whitespace characters stripped by Python's `str.strip()`
(ASCII part; Unicode spaces are not modelled). -/
def isSpaceChar (c : Char) : Bool :=
  c = ' ' || c = '\t' || c = '\n' || c = '\r' || c = '\x0b' || c = '\x0c'

/-- Python `line.strip()`: drop leading and trailing whitespace. -/
def pyStrip (l : Line) : Line :=
  ((l.dropWhile isSpaceChar).reverse.dropWhile isSpaceChar).reverse

/-- Python `len(line.encode('utf-8'))`. -/
def utf8Len (l : Line) : Nat :=
  (l.map Char.utf8Size).sum

/-- Python `lines.sort()` (ascending lexicographic). -/
def sortLines (l : List Line) : List Line :=
  List.insertionSort (· ≤ ·) l

/-- Total UTF-8 byte size of the lines buffered for one chunk
(`current_size` in `_create_sorted_chunks`). -/
def batchBytes (batch : List Line) : Nat :=
  (batch.map utf8Len).sum

/-- `ExternalSorter.__init__`: `self.memory_limit_bytes = memory_limit_gb * 1024**3`. -/
def memoryLimitBytes (memoryLimitGb : Nat) : Nat :=
  memoryLimitGb * 1024 * 1024 * 1024

/-- `ExternalSorter.__init__`: `self.chunk_size = self.memory_limit_bytes // 2`. -/
def chunkSizeOf (memoryLimitBytes : Nat) : Nat :=
  memoryLimitBytes / 2

/-- The inner read loop of `_create_sorted_chunks`: starting from accumulated
byte count `size`, read lines while `size < chunkSize`, strip each, skip the
ones that strip to empty, and accumulate the rest.  Returns the buffered batch
(in read order) and the unread remainder of the input. -/
def readBatch : List Line → Nat → Nat → List Line × List Line
  | input, size, chunkSize =>
    if size < chunkSize then
      match input with
      | [] => ([], [])
      | l :: ls =>
        let s := pyStrip l
        if s = [] then readBatch ls size chunkSize
        else
          let br := readBatch ls (size + utf8Len s) chunkSize
          (s :: br.1, br.2)
    else ([], input)

/-- Fuel-driven outer loop of `_create_sorted_chunks`: repeatedly read a
batch; stop at the first empty batch.  The batches are returned unsorted
(in read order); `fuel` bounds the number of iterations (each productive
iteration consumes at least one input line, so `input.length + 1` suffices). -/
def spillBatchesF : Nat → List Line → Nat → List (List Line)
  | 0, _, _ => []
  | fuel + 1, input, chunkSize =>
    let br := readBatch input 0 chunkSize
    if br.1 = [] then [] else br.1 :: spillBatchesF fuel br.2 chunkSize

/-- The batches buffered by `_create_sorted_chunks`, in creation order. -/
def spillBatches (input : List Line) (chunkSize : Nat) : List (List Line) :=
  spillBatchesF (input.length + 1) input chunkSize

/-- `ExternalSorter._create_sorted_chunks`: the contents of the chunk files,
in creation order (each buffered batch, sorted in memory). -/
def createSortedChunks (input : List Line) (chunkSize : Nat) : List (List Line) :=
  (spillBatches input chunkSize).map sortLines

/-- A merge cursor over one open chunk file: the stripped current record
(`current_lines[i]`, `none` when the cursor is exhausted) and the lines not
yet read from the file. -/
structure Cursor where
  current : Option Line
  rest : List Line
deriving DecidableEq, Repr

/-- Priming a cursor in `_merge_chunks`: read the first line, strip it; a
line that strips to empty (or an empty file) marks the cursor exhausted. -/
def primeChunk (chunk : List Line) : Cursor :=
  match chunk with
  | [] => ⟨none, []⟩
  | l :: ls => if pyStrip l = [] then ⟨none, ls⟩ else ⟨some (pyStrip l), ls⟩

/-- Advancing the winning cursor in `_merge_chunks`: read the next line and
strip it; at end of file the cursor becomes exhausted.  (Mid-file, a stored
line is never the empty string before stripping, because `readline` keeps the
newline, so the Python truthiness test on the raw line only fails at EOF.) -/
def advanceCursor (c : Cursor) : Cursor :=
  match c.rest with
  | [] => ⟨none, []⟩
  | l :: ls => ⟨some (pyStrip l), ls⟩

/-- The linear scan for the smallest current record (`min_line`/`min_index`),
carrying the best candidate so far; ties keep the earlier index, as in the
Python strict `<` test. -/
def findMinAux : List Cursor → Nat → Option (Nat × Line) → Option (Nat × Line)
  | [], _, best => best
  | c :: cs, i, best =>
    match c.current, best with
    | none, _ => findMinAux cs (i + 1) best
    | some v, none => findMinAux cs (i + 1) (some (i, v))
    | some v, some (j, m) =>
      if v < m then findMinAux cs (i + 1) (some (i, v))
      else findMinAux cs (i + 1) (some (j, m))

/-- One minimum-selection pass of the merge loop. -/
def findMin (cursors : List Cursor) : Option (Nat × Line) :=
  findMinAux cursors 0 none

/-- Advance the cursor at position `j` (`current_lines[min_index] = ...`). -/
def advanceAt : List Cursor → Nat → List Cursor
  | [], _ => []
  | c :: cs, 0 => advanceCursor c :: cs
  | c :: cs, n + 1 => c :: advanceAt cs n

/-- Number of records a cursor can still deliver (used as termination fuel). -/
def cursorWeight (c : Cursor) : Nat :=
  (if c.current.isSome then 1 else 0) + c.rest.length

/-- Total remaining records over all cursors. -/
def totalWeight (cursors : List Cursor) : Nat :=
  (cursors.map cursorWeight).sum

/-- The merge loop of `_merge_chunks`, fuel-driven: pick the smallest current
record; skip it when deduplicating and it equals the last emitted record,
otherwise emit it; advance the winning cursor.  Each iteration consumes one
record, so fuel `totalWeight cursors` makes the fuel bound immaterial. -/
def mergeLoopF : Nat → List Cursor → Bool → Option Line → List Line
  | 0, _, _, _ => []
  | fuel + 1, cursors, dedup, last =>
    match findMin cursors with
    | none => []
    | some (j, v) =>
      if dedup ∧ some v = last then mergeLoopF fuel (advanceAt cursors j) dedup last
      else v :: mergeLoopF fuel (advanceAt cursors j) dedup (some v)

/-- The lines written by the merge loop of `_merge_chunks` over the given
chunk contents. -/
def mergeRun (chunks : List (List Line)) (dedup : Bool) : List Line :=
  mergeLoopF (totalWeight (chunks.map primeChunk)) (chunks.map primeChunk) dedup none

/-- `ExternalSorter._merge_chunks` as a file producer: with no chunks it
returns before ever opening the output path (`if not chunks: return`), so no
output file is created; otherwise the output file holds the merged lines. -/
def mergeChunksFile (chunks : List (List Line)) (dedup : Bool) : Option (List Line) :=
  if chunks = [] then none else some (mergeRun chunks dedup)

/-- Default `max_check_lines` of `SortingChecker.is_file_sorted`. -/
def bigCap : Nat := 1000000000

/-- The scan loop of `SortingChecker.is_file_sorted`: strip each line,
report `(false, line_num)` at the first line strictly below its predecessor,
stop silently at the `max_check_lines` cap. -/
def isFileSortedLoop :
    List Line → Nat → Option Line → Nat → Nat → Bool × Nat
  | [], _, _, lastChecked, _ => (true, lastChecked)
  | l :: ls, lineNum, prev, lastChecked, maxCheck =>
    if lineNum > maxCheck then (true, lastChecked)
    else
      match prev with
      | some p =>
        if pyStrip l < p then (false, lineNum)
        else isFileSortedLoop ls (lineNum + 1) (some (pyStrip l)) lineNum maxCheck
      | none => isFileSortedLoop ls (lineNum + 1) (some (pyStrip l)) lineNum maxCheck

/-- `SortingChecker.is_file_sorted`: a missing file is `(false, 0)`; an
existing file is scanned line by line. -/
def isFileSorted (file : Option (List Line)) (maxCheck : Nat) : Bool × Nat :=
  match file with
  | none => (false, 0)
  | some lines => isFileSortedLoop lines 1 none 0 maxCheck

/-- `external_sort` with `auto_verify=False` (as invoked for the re-sort
retry): no already-sorted shortcut, spill then merge; with zero chunks the
output path keeps its previous content `prevOut` (the merge never opens it). -/
def externalSortNV (input : List Line) (chunkSize : Nat) (dedup : Bool)
    (prevOut : Option (List Line)) : Option (List Line) :=
  match mergeChunksFile (createSortedChunks input chunkSize) dedup with
  | none => prevOut
  | some out => some out

/-- Outcome of `_auto_verify_sorting` on the state of the output path. -/
structure VerifyOutcome where
  /-- content of the output path afterwards (`none` = no file). -/
  output : Option (List Line)
  /-- number of re-sort attempts started. -/
  resorts : Nat
  /-- whether the final check printed "File still not sorted after re-sorting!". -/
  stillUnsortedError : Bool
  /-- whether an exception escaped to the caller
  (`FileNotFoundError` from re-sorting a missing output file). -/
  crashed : Bool
deriving DecidableEq, Repr

/-- `ExternalSorter._auto_verify_sorting`: verify the output; if unsorted,
re-sort it once via `external_sort(output, temp, deduplicate=False,
auto_verify=False)`, replace the output with the temp file, and verify again.
If the output path is missing, the re-sort raises `FileNotFoundError`, which
is not caught.  If the re-sort produced no temp file, `os.rename` raises and
the `except` branch leaves the output path deleted. -/
def autoVerifySorting (outFile : Option (List Line)) (chunkSize : Nat) :
    VerifyOutcome :=
  if (isFileSorted outFile bigCap).1 then ⟨outFile, 0, false, false⟩
  else
    match outFile with
    | none => ⟨none, 1, false, true⟩
    | some lines =>
      match externalSortNV lines chunkSize false none with
      | none => ⟨none, 1, false, false⟩
      | some newLines =>
        ⟨some newLines, 1, !(isFileSorted (some newLines) bigCap).1, false⟩

/-- Observable result of one `ExternalSorter.external_sort` call. -/
structure SortResult where
  /-- content of the output path afterwards (`none` = no file). -/
  output : Option (List Line)
  /-- number of chunk files created by this call. -/
  chunksCreated : Nat
  /-- whether the already-sorted shortcut skipped the pipeline. -/
  skipped : Bool
  /-- number of re-sort attempts started by auto-verification. -/
  resorts : Nat
  /-- whether the final check printed "File still not sorted after re-sorting!". -/
  stillUnsortedError : Bool
  /-- whether an exception escaped to the caller. -/
  crashed : Bool
deriving DecidableEq, Repr

/-- `ExternalSorter.external_sort`: if the output path exists, `auto_verify`
is on and the existing file verifies as sorted, skip everything; otherwise
spill the input into sorted chunks, merge them into the output path, and
auto-verify when requested.  `prevOut` is the content of the output path
before the call. -/
def externalSort (input : List Line) (prevOut : Option (List Line))
    (chunkSize : Nat) (dedup autoVerify : Bool) : SortResult :=
  if autoVerify ∧ prevOut.isSome ∧ (isFileSorted prevOut bigCap).1 then
    ⟨prevOut, 0, true, 0, false, false⟩
  else
    let chunks := createSortedChunks input chunkSize
    let merged := externalSortNV input chunkSize dedup prevOut
    if autoVerify then
      let v := autoVerifySorting merged chunkSize
      ⟨v.output, chunks.length, false, v.resorts, v.stillUnsortedError, v.crashed⟩
    else
      ⟨merged, chunks.length, false, 0, false, false⟩

/-- The `sort_and_dedup` pipeline of the spec: spill then merge with
deduplication on, as a file producer (no pre-existing output, no verify). -/
def sortAndDedup (input : List Line) (chunkSize : Nat) : Option (List Line) :=
  mergeChunksFile (createSortedChunks input chunkSize) true

/-- A line the cleaning stage guarantees: non-empty and already stripped. -/
def CleanLine (l : Line) : Prop :=
  pyStrip l = l ∧ l ≠ []

/-- The records a cursor can still deliver, as they will be observed by the
merge loop (current record, then the stripped remaining lines; a dead cursor
delivers nothing because it is never selected again). -/
def Cursor.toList (c : Cursor) : List Line :=
  match c.current with
  | none => []
  | some v => v :: c.rest.map pyStrip

/-- Convenience embedding of string literals into the line model. -/
def lineOf (s : String) : Line := s.data

instance : DecidablePred CleanLine := fun l =>
  decidable_of_iff (pyStrip l = l ∧ l ≠ []) Iff.rfl

/-! ## Basic facts about `pyStrip` -/

theorem dropWhile_head_false {α : Type} {p : α → Bool} :
    ∀ (l : List α) {a : α} {t : List α}, List.dropWhile p l = a :: t → p a = false := by
  intro l
  induction l with
  | nil => intro a t h; simp [List.dropWhile] at h
  | cons x xs ih =>
    intro a t h
    rw [List.dropWhile_cons] at h
    by_cases hp : p x = true
    · exact ih (by simpa [hp] using h)
    · obtain ⟨rfl, -⟩ : x = a ∧ xs = t := by
        simpa [hp] using h
      simpa using hp

theorem dropWhile_dropWhile {α : Type} {p : α → Bool} (l : List α) :
    (l.dropWhile p).dropWhile p = l.dropWhile p := by
  cases h : l.dropWhile p with
  | nil => simp
  | cons a t => rw [List.dropWhile_cons]; simp [dropWhile_head_false l h]

theorem pyStrip_prefix_dropWhile (l : Line) :
    pyStrip l <+: l.dropWhile isSpaceChar := by
  unfold pyStrip
  rw [show l.dropWhile isSpaceChar =
      ((l.dropWhile isSpaceChar).reverse).reverse by simp]
  exact List.reverse_prefix.mpr (by simpa using List.dropWhile_suffix isSpaceChar)

theorem pyStrip_head_false {l : Line} {a : Char} {t : Line}
    (h : pyStrip l = a :: t) : isSpaceChar a = false := by
  obtain ⟨s, hs⟩ := pyStrip_prefix_dropWhile l
  rw [h] at hs
  exact dropWhile_head_false l (by simpa using hs.symm)

theorem pyStrip_idem (l : Line) : pyStrip (pyStrip l) = pyStrip l := by
  have h1 : (pyStrip l).dropWhile isSpaceChar = pyStrip l := by
    cases h : pyStrip l with
    | nil => simp
    | cons a t =>
      rw [List.dropWhile_cons, pyStrip_head_false h]
      simp
  show ((((pyStrip l).dropWhile isSpaceChar).reverse).dropWhile isSpaceChar).reverse
      = pyStrip l
  rw [h1]
  have h2 : (pyStrip l).reverse =
      ((l.dropWhile isSpaceChar).reverse).dropWhile isSpaceChar := by
    simp [pyStrip]
  rw [h2, dropWhile_dropWhile, ← h2]
  simp

theorem cleanLine_of_pyStrip {l raw : Line} (h : l = pyStrip raw) (hne : l ≠ []) :
    CleanLine l := by
  refine ⟨?_, hne⟩
  rw [h, pyStrip_idem]

theorem pyStrip_of_clean {l : Line} (h : CleanLine l) : pyStrip l = l := h.1

/-! ## The spill loop (`_create_sorted_chunks`) -/

theorem readBatch_nil (size cs : Nat) : readBatch [] size cs = ([], []) := by
  rw [readBatch]
  split <;> rfl

theorem readBatch_stop {size cs : Nat} (input : List Line) (h : ¬ size < cs) :
    readBatch input size cs = ([], input) := by
  rw [readBatch.eq_def]
  simp [h]

theorem readBatch_cons {size cs : Nat} (l : Line) (ls : List Line) (h : size < cs) :
    readBatch (l :: ls) size cs =
      if pyStrip l = [] then readBatch ls size cs
      else (pyStrip l :: (readBatch ls (size + utf8Len (pyStrip l)) cs).1,
            (readBatch ls (size + utf8Len (pyStrip l)) cs).2) := by
  conv_lhs => rw [readBatch]
  simp only [if_pos h]

theorem readBatch_elem :
    ∀ (input : List Line) (size cs : Nat) (x : Line),
      x ∈ (readBatch input size cs).1 → ∃ raw ∈ input, x = pyStrip raw ∧ x ≠ [] := by
  intro input
  induction input with
  | nil => intro size cs x hx; rw [readBatch_nil] at hx; simp at hx
  | cons l ls ih =>
    intro size cs x hx
    by_cases h : size < cs
    · rw [readBatch_cons l ls h] at hx
      by_cases hs : pyStrip l = []
      · rw [if_pos hs] at hx
        obtain ⟨raw, hraw, hx⟩ := ih size cs x hx
        exact ⟨raw, List.mem_cons_of_mem _ hraw, hx⟩
      · rw [if_neg hs] at hx
        rcases List.mem_cons.mp hx with rfl | hx
        · exact ⟨l, List.mem_cons_self _ _, rfl, hs⟩
        · obtain ⟨raw, hraw, hx⟩ := ih _ cs x hx
          exact ⟨raw, List.mem_cons_of_mem _ hraw, hx⟩
    · rw [readBatch_stop _ h] at hx
      simp at hx

theorem readBatch_clean_append :
    ∀ (input : List Line) (size cs : Nat), (∀ l ∈ input, CleanLine l) →
      (readBatch input size cs).1 ++ (readBatch input size cs).2 = input := by
  intro input
  induction input with
  | nil => intro size cs _; rw [readBatch_nil]; rfl
  | cons l ls ih =>
    intro size cs hclean
    by_cases h : size < cs
    · have hl : CleanLine l := hclean l (List.mem_cons_self _ _)
      rw [readBatch_cons l ls h, if_neg (by rw [hl.1]; exact hl.2), hl.1]
      have := ih (size + utf8Len l) cs fun x hx => hclean x (List.mem_cons_of_mem _ hx)
      simpa using this
    · rw [readBatch_stop _ h]; rfl

theorem readBatch_rest_length :
    ∀ (input : List Line) (size cs : Nat),
      (readBatch input size cs).2.length ≤ input.length := by
  intro input
  induction input with
  | nil => intro size cs; rw [readBatch_nil]
  | cons l ls ih =>
    intro size cs
    by_cases h : size < cs
    · rw [readBatch_cons l ls h]
      by_cases hs : pyStrip l = []
      · rw [if_pos hs]
        exact le_trans (ih size cs) (by simp)
      · rw [if_neg hs]
        exact le_trans (ih _ cs) (by simp)
    · rw [readBatch_stop _ h]

theorem readBatch_consume :
    ∀ (input : List Line) (size cs : Nat),
      (readBatch input size cs).1 ≠ [] →
      (readBatch input size cs).2.length < input.length := by
  intro input
  induction input with
  | nil => intro size cs hne; rw [readBatch_nil] at hne ⊢; simp at hne
  | cons l ls ih =>
    intro size cs hne
    by_cases h : size < cs
    · rw [readBatch_cons l ls h] at hne ⊢
      by_cases hs : pyStrip l = []
      · rw [if_pos hs] at hne ⊢
        exact lt_of_lt_of_le (ih size cs hne) (by simp)
      · rw [if_neg hs]
        exact Nat.lt_succ_of_le (readBatch_rest_length ls _ cs)
    · rw [readBatch_stop _ h] at hne
      simp at hne

theorem readBatch_pos {input : List Line} {size cs : Nat}
    (hne : (readBatch input size cs).1 ≠ []) : size < cs := by
  by_contra h
  rw [readBatch_stop _ h] at hne
  simp at hne

theorem batchBytes_nil : batchBytes [] = 0 := rfl

theorem batchBytes_cons (x : Line) (xs : List Line) :
    batchBytes (x :: xs) = utf8Len x + batchBytes xs := by
  simp [batchBytes]

theorem readBatch_dropLast_bytes :
    ∀ (input : List Line) (size cs : Nat),
      (readBatch input size cs).1 ≠ [] →
      size + batchBytes ((readBatch input size cs).1).dropLast < cs := by
  intro input
  induction input with
  | nil => intro size cs hne; rw [readBatch_nil] at hne; simp at hne
  | cons l ls ih =>
    intro size cs hne
    by_cases h : size < cs
    · rw [readBatch_cons l ls h] at hne ⊢
      by_cases hs : pyStrip l = []
      · rw [if_pos hs] at hne ⊢
        exact ih size cs hne
      · rw [if_neg hs]
        by_cases hb : (readBatch ls (size + utf8Len (pyStrip l)) cs).1 = []
        · rw [hb]
          simpa using h
        · rw [List.dropLast_cons_of_ne_nil hb, batchBytes_cons]
          have := ih (size + utf8Len (pyStrip l)) cs hb
          omega
    · rw [readBatch_stop _ h] at hne
      simp at hne

theorem spillBatchesF_elem_clean :
    ∀ (fuel : Nat) (input : List Line) (cs : Nat) (b : List Line),
      b ∈ spillBatchesF fuel input cs → ∀ x ∈ b, CleanLine x := by
  intro fuel
  induction fuel with
  | zero => intro input cs b hb; simp [spillBatchesF] at hb
  | succ fuel ih =>
    intro input cs b hb x hx
    rw [spillBatchesF] at hb
    by_cases h : (readBatch input 0 cs).1 = []
    · rw [if_pos h] at hb; simp at hb
    · rw [if_neg h] at hb
      rcases List.mem_cons.mp hb with rfl | hb
      · obtain ⟨raw, -, hxe, hne⟩ := readBatch_elem input 0 cs x hx
        exact cleanLine_of_pyStrip hxe hne
      · exact ih _ cs b hb x hx

theorem spillBatchesF_nonempty :
    ∀ (fuel : Nat) (input : List Line) (cs : Nat) (b : List Line),
      b ∈ spillBatchesF fuel input cs → b ≠ [] := by
  intro fuel
  induction fuel with
  | zero => intro input cs b hb; simp [spillBatchesF] at hb
  | succ fuel ih =>
    intro input cs b hb
    rw [spillBatchesF] at hb
    by_cases h : (readBatch input 0 cs).1 = []
    · rw [if_pos h] at hb; simp at hb
    · rw [if_neg h] at hb
      rcases List.mem_cons.mp hb with rfl | hb
      · exact h
      · exact ih _ cs b hb

theorem spillBatchesF_dropLast_bytes :
    ∀ (fuel : Nat) (input : List Line) (cs : Nat) (b : List Line),
      b ∈ spillBatchesF fuel input cs → batchBytes b.dropLast < cs := by
  intro fuel
  induction fuel with
  | zero => intro input cs b hb; simp [spillBatchesF] at hb
  | succ fuel ih =>
    intro input cs b hb
    rw [spillBatchesF] at hb
    by_cases h : (readBatch input 0 cs).1 = []
    · rw [if_pos h] at hb; simp at hb
    · rw [if_neg h] at hb
      rcases List.mem_cons.mp hb with rfl | hb
      · have := readBatch_dropLast_bytes input 0 cs h
        omega
      · exact ih _ cs b hb

theorem readBatch_clean_nonempty {input : List Line} {cs : Nat}
    (h0 : 0 < cs) (hclean : ∀ l ∈ input, CleanLine l) (hne : input ≠ []) :
    (readBatch input 0 cs).1 ≠ [] := by
  cases input with
  | nil => exact absurd rfl hne
  | cons l ls =>
    have hl := hclean l (List.mem_cons_self _ _)
    rw [readBatch_cons l ls h0, if_neg (by rw [hl.1]; exact hl.2)]
    simp

theorem spillBatchesF_flatten_clean :
    ∀ (fuel : Nat) (input : List Line) (cs : Nat),
      input.length < fuel → 0 < cs → (∀ l ∈ input, CleanLine l) →
      (spillBatchesF fuel input cs).flatten = input := by
  intro fuel
  induction fuel with
  | zero => intro input cs hlen; omega
  | succ fuel ih =>
    intro input cs hlen h0 hclean
    rw [spillBatchesF]
    by_cases h : (readBatch input 0 cs).1 = []
    · rw [if_pos h]
      cases hi : input with
      | nil => rfl
      | cons l ls =>
        subst hi
        exact absurd h (readBatch_clean_nonempty h0 hclean (by simp))
    · rw [if_neg h]
      have hrest : ∀ l ∈ (readBatch input 0 cs).2, CleanLine l := by
        intro l hl
        refine hclean l ?_
        rw [← readBatch_clean_append input 0 cs hclean]
        exact List.mem_append_right _ hl
      have hlen' : (readBatch input 0 cs).2.length < fuel :=
        lt_of_lt_of_le (readBatch_consume input 0 cs h) (Nat.lt_succ_iff.mp hlen)
      rw [List.flatten_cons, ih _ cs hlen' h0 hrest]
      exact readBatch_clean_append input 0 cs hclean

theorem spillBatches_flatten_clean {input : List Line} {cs : Nat}
    (h0 : 0 < cs) (hclean : ∀ l ∈ input, CleanLine l) :
    (spillBatches input cs).flatten = input :=
  spillBatchesF_flatten_clean _ input cs (Nat.lt_succ_self _) h0 hclean

theorem sortLines_perm (b : List Line) : (sortLines b).Perm b :=
  List.perm_insertionSort _ b

theorem sortLines_sorted (b : List Line) : List.Sorted (· ≤ ·) (sortLines b) :=
  List.sorted_insertionSort _ b

theorem sortLines_eq_self {b : List Line} (h : List.Sorted (· ≤ ·) b) :
    sortLines b = b :=
  List.eq_of_perm_of_sorted (sortLines_perm b) (sortLines_sorted b) h

/-! ## Properties of the chunk files -/

theorem chunks_sorted {input : List Line} {cs : Nat} :
    ∀ c ∈ createSortedChunks input cs, List.Sorted (· ≤ ·) c := by
  intro c hc
  obtain ⟨b, -, rfl⟩ := List.mem_map.mp hc
  exact sortLines_sorted b

theorem chunks_clean {input : List Line} {cs : Nat} :
    ∀ c ∈ createSortedChunks input cs, ∀ x ∈ c, CleanLine x := by
  intro c hc x hx
  obtain ⟨b, hb, rfl⟩ := List.mem_map.mp hc
  exact spillBatchesF_elem_clean _ input cs b hb x ((sortLines_perm b).mem_iff.mp hx)

theorem chunks_nonempty {input : List Line} {cs : Nat} :
    ∀ c ∈ createSortedChunks input cs, c ≠ [] := by
  intro c hc
  obtain ⟨b, hb, rfl⟩ := List.mem_map.mp hc
  intro hc0
  exact spillBatchesF_nonempty _ input cs b hb
    (List.eq_nil_of_length_eq_zero (by rw [← (sortLines_perm b).length_eq, hc0]; rfl))

theorem flatten_map_sortLines_perm (L : List (List Line)) :
    ((L.map sortLines).flatten).Perm L.flatten := by
  induction L with
  | nil => simp
  | cons b L ih =>
    simp only [List.map_cons, List.flatten_cons]
    exact (sortLines_perm b).append ih

theorem chunks_flatten_perm {input : List Line} {cs : Nat}
    (h0 : 0 < cs) (hclean : ∀ l ∈ input, CleanLine l) :
    ((createSortedChunks input cs).flatten).Perm input := by
  have := flatten_map_sortLines_perm (spillBatches input cs)
  rw [spillBatches_flatten_clean h0 hclean] at this
  exact this

/-! ## The minimum scan of the merge loop -/

theorem findMinAux_cons_none {c : Cursor} (cs : List Cursor) (i : Nat)
    (best : Option (Nat × Line)) (hc : c.current = none) :
    findMinAux (c :: cs) i best = findMinAux cs (i + 1) best :=
  findMinAux.eq_2 i c cs best hc

theorem findMinAux_cons_some_none {c : Cursor} (cs : List Cursor) (i : Nat)
    {v : Line} (hc : c.current = some v) :
    findMinAux (c :: cs) i none = findMinAux cs (i + 1) (some (i, v)) :=
  findMinAux.eq_3 i c cs v hc

theorem findMinAux_cons_some_some {c : Cursor} (cs : List Cursor) (i j : Nat)
    {v m : Line} (hc : c.current = some v) :
    findMinAux (c :: cs) i (some (j, m)) =
      if v < m then findMinAux cs (i + 1) (some (i, v))
      else findMinAux cs (i + 1) (some (j, m)) :=
  findMinAux.eq_4 i c cs v j m hc

theorem findMinAux_none :
    ∀ (cursors : List Cursor) (i : Nat) (best : Option (Nat × Line)),
      findMinAux cursors i best = none →
      best = none ∧ ∀ c ∈ cursors, c.current = none := by
  intro cursors
  induction cursors with
  | nil => intro i best h; exact ⟨h, by simp⟩
  | cons c cs ih =>
    intro i best h
    cases hc : c.current with
    | none =>
      rw [findMinAux_cons_none cs i best hc] at h
      obtain ⟨hb, hall⟩ := ih _ _ h
      refine ⟨hb, ?_⟩
      intro d hd
      rcases List.mem_cons.mp hd with rfl | hd
      · exact hc
      · exact hall d hd
    | some v =>
      cases best with
      | none =>
        rw [findMinAux_cons_some_none cs i hc] at h
        exact absurd (ih _ _ h).1 (by simp)
      | some jm =>
        obtain ⟨j, m⟩ := jm
        rw [findMinAux_cons_some_some cs i j hc] at h
        by_cases hv : v < m
        · rw [if_pos hv] at h
          exact absurd (ih _ _ h).1 (by simp)
        · rw [if_neg hv] at h
          exact absurd (ih _ _ h).1 (by simp)

theorem findMinAux_get :
    ∀ (cursors : List Cursor) (i : Nat) (best : Option (Nat × Line))
      (res : Nat × Line), findMinAux cursors i best = some res →
      best = some res ∨
        ∃ k, ∃ hk : k < cursors.length,
          res.1 = i + k ∧ (cursors.get ⟨k, hk⟩).current = some res.2 := by
  intro cursors
  induction cursors with
  | nil => intro i best res h; exact Or.inl h
  | cons c cs ih =>
    intro i best res h
    have shift :
        (∃ k, ∃ hk : k < cs.length,
            res.1 = (i + 1) + k ∧ (cs.get ⟨k, hk⟩).current = some res.2) →
        ∃ k, ∃ hk : k < (c :: cs).length,
          res.1 = i + k ∧ ((c :: cs).get ⟨k, hk⟩).current = some res.2 := by
      rintro ⟨k, hk, hres, hget⟩
      exact ⟨k + 1, Nat.succ_lt_succ hk, by omega, hget⟩
    cases hc : c.current with
    | none =>
      rw [findMinAux_cons_none cs i best hc] at h
      rcases ih _ _ _ h with hb | hrest
      · exact Or.inl hb
      · exact Or.inr (shift hrest)
    | some v =>
      have self_case : res = (i, v) →
          ∃ k, ∃ hk : k < (c :: cs).length,
            res.1 = i + k ∧ ((c :: cs).get ⟨k, hk⟩).current = some res.2 := by
        rintro rfl
        exact ⟨0, Nat.succ_pos _, by omega, hc⟩
      cases best with
      | none =>
        rw [findMinAux_cons_some_none cs i hc] at h
        rcases ih _ _ _ h with hb | hrest
        · exact Or.inr (self_case (by injection hb with hb; exact hb.symm))
        · exact Or.inr (shift hrest)
      | some jm =>
        obtain ⟨j, m⟩ := jm
        rw [findMinAux_cons_some_some cs i j hc] at h
        by_cases hv : v < m
        · rw [if_pos hv] at h
          rcases ih _ _ _ h with hb | hrest
          · exact Or.inr (self_case (by injection hb with hb; exact hb.symm))
          · exact Or.inr (shift hrest)
        · rw [if_neg hv] at h
          rcases ih _ _ _ h with hb | hrest
          · exact Or.inl hb
          · exact Or.inr (shift hrest)

theorem findMinAux_min :
    ∀ (cursors : List Cursor) (i : Nat) (best : Option (Nat × Line))
      (res : Nat × Line), findMinAux cursors i best = some res →
      (∀ c ∈ cursors, ∀ w, c.current = some w → res.2 ≤ w) ∧
      (∀ j m, best = some (j, m) → res.2 ≤ m) := by
  intro cursors
  induction cursors with
  | nil =>
    intro i best res h
    refine ⟨by simp, ?_⟩
    intro j m hb
    rw [hb] at h
    injection h with h
    rw [← h]
  | cons c cs ih =>
    intro i best res h
    cases hc : c.current with
    | none =>
      rw [findMinAux_cons_none cs i best hc] at h
      obtain ⟨hmem, hbest⟩ := ih _ _ _ h
      refine ⟨?_, hbest⟩
      intro d hd w hw
      rcases List.mem_cons.mp hd with rfl | hd
      · rw [hc] at hw; cases hw
      · exact hmem d hd w hw
    | some v =>
      cases best with
      | none =>
        rw [findMinAux_cons_some_none cs i hc] at h
        obtain ⟨hmem, hbest⟩ := ih _ _ _ h
        have hv : res.2 ≤ v := hbest i v rfl
        refine ⟨?_, by simp⟩
        intro d hd w hw
        rcases List.mem_cons.mp hd with rfl | hd
        · rw [hc] at hw; injection hw with hw; rw [← hw]; exact hv
        · exact hmem d hd w hw
      | some jm =>
        obtain ⟨j, m⟩ := jm
        rw [findMinAux_cons_some_some cs i j hc] at h
        by_cases hvm : v < m
        · rw [if_pos hvm] at h
          obtain ⟨hmem, hbest⟩ := ih _ _ _ h
          have hv : res.2 ≤ v := hbest i v rfl
          refine ⟨?_, ?_⟩
          · intro d hd w hw
            rcases List.mem_cons.mp hd with rfl | hd
            · rw [hc] at hw; injection hw with hw; rw [← hw]; exact hv
            · exact hmem d hd w hw
          · intro j' m' hb
            injection hb with hb
            cases hb
            exact le_trans hv (le_of_lt hvm)
        · rw [if_neg hvm] at h
          obtain ⟨hmem, hbest⟩ := ih _ _ _ h
          have hm : res.2 ≤ m := hbest j m rfl
          refine ⟨?_, ?_⟩
          · intro d hd w hw
            rcases List.mem_cons.mp hd with rfl | hd
            · rw [hc] at hw; injection hw with hw; rw [← hw]
              exact le_trans hm (le_of_not_lt hvm)
            · exact hmem d hd w hw
          · intro j' m' hb
            injection hb with hb
            cases hb
            exact hm

theorem findMin_none {cursors : List Cursor} (h : findMin cursors = none) :
    ∀ c ∈ cursors, c.current = none :=
  (findMinAux_none cursors 0 none h).2

theorem findMin_get {cursors : List Cursor} {j : Nat} {v : Line}
    (h : findMin cursors = some (j, v)) :
    ∃ hj : j < cursors.length, (cursors.get ⟨j, hj⟩).current = some v := by
  rcases findMinAux_get cursors 0 none (j, v) h with hb | ⟨k, hk, hres, hget⟩
  · cases hb
  · have : j = k := by simpa using hres
    subst this
    exact ⟨hk, hget⟩

theorem findMin_min {cursors : List Cursor} {j : Nat} {v : Line}
    (h : findMin cursors = some (j, v)) :
    ∀ c ∈ cursors, ∀ w, c.current = some w → v ≤ w :=
  (findMinAux_min cursors 0 none (j, v) h).1

/-! ## Advancing the winning cursor -/

theorem totalWeight_cons (c : Cursor) (cs : List Cursor) :
    totalWeight (c :: cs) = cursorWeight c + totalWeight cs := by
  simp [totalWeight]

theorem cursorWeight_advance {c : Cursor} {v : Line} (h : c.current = some v) :
    cursorWeight (advanceCursor c) + 1 = cursorWeight c := by
  obtain ⟨cur, rest⟩ := c
  have h' : cur = some v := h
  subst h'
  cases rest with
  | nil => rfl
  | cons l ls =>
    simp only [advanceCursor, cursorWeight, Option.isSome, List.length_cons]
    omega

theorem totalWeight_advanceAt :
    ∀ (cursors : List Cursor) (j : Nat) (hj : j < cursors.length) {v : Line},
      (cursors.get ⟨j, hj⟩).current = some v →
      totalWeight (advanceAt cursors j) + 1 = totalWeight cursors := by
  intro cursors
  induction cursors with
  | nil => intro j hj; exact absurd hj (by simp)
  | cons c cs ih =>
    intro j hj v hv
    cases j with
    | zero =>
      have hv' : c.current = some v := hv
      show totalWeight (advanceCursor c :: cs) + 1 = totalWeight (c :: cs)
      rw [totalWeight_cons, totalWeight_cons]
      have := cursorWeight_advance hv'
      omega
    | succ n =>
      show totalWeight (c :: advanceAt cs n) + 1 = totalWeight (c :: cs)
      rw [totalWeight_cons, totalWeight_cons]
      have := ih n (Nat.lt_of_succ_lt_succ hj) hv
      omega

theorem forall_advanceAt {P : Cursor → Prop} :
    ∀ (cursors : List Cursor) (j : Nat),
      (∀ c ∈ cursors, P c) →
      (∀ c, P c → c.current.isSome → P (advanceCursor c)) →
      (∀ hj : j < cursors.length, ((cursors.get ⟨j, hj⟩).current).isSome) →
      ∀ c ∈ advanceAt cursors j, P c := by
  intro cursors
  induction cursors with
  | nil => intro j _ _ _ c hc; simp [advanceAt] at hc
  | cons c0 cs ih =>
    intro j hall hadv hj c hc
    cases j with
    | zero =>
      rcases List.mem_cons.mp hc with rfl | hc
      · exact hadv c0 (hall c0 (List.mem_cons_self _ _)) (hj (by simp))
      · exact hall c (List.mem_cons_of_mem _ hc)
    | succ n =>
      rcases List.mem_cons.mp hc with rfl | hc
      · exact hall c (List.mem_cons_self _ _)
      · exact ih n (fun d hd => hall d (List.mem_cons_of_mem _ hd)) hadv
          (fun hn => hj (Nat.succ_lt_succ hn)) c hc

theorem mem_advanceAt :
    ∀ (cursors : List Cursor) (j : Nat) (c : Cursor), c ∈ advanceAt cursors j →
      c ∈ cursors ∨ ∃ hj : j < cursors.length, c = advanceCursor (cursors.get ⟨j, hj⟩) := by
  intro cursors
  induction cursors with
  | nil => intro j c hc; simp [advanceAt] at hc
  | cons c0 cs ih =>
    intro j c hc
    cases j with
    | zero =>
      rcases List.mem_cons.mp hc with rfl | hc
      · exact Or.inr ⟨by simp, rfl⟩
      · exact Or.inl (List.mem_cons_of_mem _ hc)
    | succ n =>
      rcases List.mem_cons.mp hc with rfl | hc
      · exact Or.inl (List.mem_cons_self _ _)
      · rcases ih n c hc with hmem | ⟨hn, heq⟩
        · exact Or.inl (List.mem_cons_of_mem _ hmem)
        · exact Or.inr ⟨Nat.succ_lt_succ hn, heq⟩

/-! ## The records a cursor still delivers -/

theorem toList_advance_cons {c : Cursor} {v : Line} (h : c.current = some v) :
    Cursor.toList c = v :: Cursor.toList (advanceCursor c) := by
  obtain ⟨cur, rest⟩ := c
  cases cur with
  | none => cases h
  | some w =>
    injection h with h
    subst h
    cases rest with
    | nil => rfl
    | cons l ls => rfl

theorem toList_advance_sorted {c : Cursor} {v : Line} (hc : c.current = some v)
    (h : List.Sorted (· ≤ ·) (Cursor.toList c)) :
    List.Sorted (· ≤ ·) (Cursor.toList (advanceCursor c)) := by
  rw [toList_advance_cons hc] at h
  exact (List.sorted_cons.mp h).2

theorem advance_current_ge {c : Cursor} {v w : Line} (hc : c.current = some v)
    (hs : List.Sorted (· ≤ ·) (Cursor.toList c))
    (hw : (advanceCursor c).current = some w) : v ≤ w := by
  rw [toList_advance_cons hc, toList_advance_cons hw] at hs
  exact (List.sorted_cons.mp hs).1 w (List.mem_cons_self _ _)

theorem primeChunk_toList_clean {chunk : List Line}
    (h : ∀ x ∈ chunk, CleanLine x) : Cursor.toList (primeChunk chunk) = chunk := by
  cases chunk with
  | nil => rfl
  | cons l ls =>
    have hl := h l (List.mem_cons_self _ _)
    rw [primeChunk, if_neg (by rw [hl.1]; exact hl.2)]
    show pyStrip l :: ls.map pyStrip = l :: ls
    rw [hl.1]
    congr 1
    rw [List.map_congr_left fun x hx => (h x (List.mem_cons_of_mem _ hx)).1]
    exact List.map_id _

theorem primeChunk_toList_subset {chunk : List Line} :
    ∀ x ∈ Cursor.toList (primeChunk chunk), ∃ raw ∈ chunk, x = pyStrip raw := by
  cases chunk with
  | nil => intro x hx; cases hx
  | cons l ls =>
    intro x hx
    rw [primeChunk] at hx
    by_cases hs : pyStrip l = []
    · rw [if_pos hs] at hx
      cases hx
    · rw [if_neg hs] at hx
      rcases List.mem_cons.mp hx with rfl | hx
      · exact ⟨l, List.mem_cons_self _ _, rfl⟩
      · obtain ⟨raw, hraw, rfl⟩ := List.mem_map.mp hx
        exact ⟨raw, List.mem_cons_of_mem _ hraw, rfl⟩

theorem flatten_advanceAt_perm :
    ∀ (cursors : List Cursor) (j : Nat) (hj : j < cursors.length) {v : Line},
      (cursors.get ⟨j, hj⟩).current = some v →
      (v :: ((advanceAt cursors j).map Cursor.toList).flatten).Perm
        ((cursors.map Cursor.toList).flatten) := by
  intro cursors
  induction cursors with
  | nil => intro j hj; exact absurd hj (by simp)
  | cons c cs ih =>
    intro j hj v hv
    cases j with
    | zero =>
      have hv' : c.current = some v := hv
      show (v :: ((advanceCursor c :: cs).map Cursor.toList).flatten).Perm _
      simp only [List.map_cons, List.flatten_cons]
      rw [← List.cons_append, ← toList_advance_cons hv']
    | succ n =>
      show (v :: ((c :: advanceAt cs n).map Cursor.toList).flatten).Perm _
      simp only [List.map_cons, List.flatten_cons]
      refine List.Perm.trans ?_
        ((ih n (Nat.lt_of_succ_lt_succ hj) hv).append_left (Cursor.toList c))
      exact List.perm_middle.symm

/-! ## The merge loop: unfolding equations -/

theorem mergeLoopF_zero (cursors : List Cursor) (dedup : Bool) (last : Option Line) :
    mergeLoopF 0 cursors dedup last = [] := rfl

theorem mergeLoopF_succ_none {cursors : List Cursor} (fuel : Nat) (dedup : Bool)
    (last : Option Line) (h : findMin cursors = none) :
    mergeLoopF (fuel + 1) cursors dedup last = [] := by
  rw [mergeLoopF, h]

theorem mergeLoopF_succ_some {cursors : List Cursor} {j : Nat} {v : Line}
    (fuel : Nat) (dedup : Bool) (last : Option Line)
    (h : findMin cursors = some (j, v)) :
    mergeLoopF (fuel + 1) cursors dedup last =
      if dedup ∧ some v = last then mergeLoopF fuel (advanceAt cursors j) dedup last
      else v :: mergeLoopF fuel (advanceAt cursors j) dedup (some v) := by
  rw [mergeLoopF, h]

/-! ## The merge loop keeps the output ordered -/

theorem mergeLoopF_invariant :
    ∀ (fuel : Nat) (cursors : List Cursor) (dedup : Bool) (last : Option Line),
      totalWeight cursors ≤ fuel →
      (∀ c ∈ cursors, List.Sorted (· ≤ ·) (Cursor.toList c)) →
      (∀ c ∈ cursors, ∀ w, c.current = some w → ∀ p, last = some p → p ≤ w) →
      List.Sorted (· ≤ ·) (mergeLoopF fuel cursors dedup last) ∧
      (∀ x ∈ mergeLoopF fuel cursors dedup last, ∀ p, last = some p → p ≤ x) ∧
      (dedup = true →
        List.Chain' (· < ·) (mergeLoopF fuel cursors dedup last) ∧
        ∀ x ∈ mergeLoopF fuel cursors dedup last, ∀ p, last = some p → p < x) := by
  intro fuel
  induction fuel with
  | zero =>
    intro cursors dedup last _ _ _
    rw [mergeLoopF_zero]
    exact ⟨List.sorted_nil, by simp, fun _ => ⟨List.chain'_nil, by simp⟩⟩
  | succ fuel ih =>
    intro cursors dedup last hw h1 h2
    cases hm : findMin cursors with
    | none =>
      rw [mergeLoopF_succ_none fuel dedup last hm]
      exact ⟨List.sorted_nil, by simp, fun _ => ⟨List.chain'_nil, by simp⟩⟩
    | some jv =>
      obtain ⟨j, v⟩ := jv
      obtain ⟨hj, hcur⟩ := findMin_get hm
      have hmin := findMin_min hm
      have hcjmem : cursors.get ⟨j, hj⟩ ∈ cursors := List.get_mem _ _ _
      have hw' : totalWeight (advanceAt cursors j) ≤ fuel := by
        have := totalWeight_advanceAt cursors j hj hcur
        omega
      have htrans : ∀ c ∈ advanceAt cursors j,
          List.Sorted (· ≤ ·) (Cursor.toList c) ∧
            ∀ w, c.current = some w → v ≤ w := by
        refine forall_advanceAt cursors j ?_ ?_ ?_
        · intro c hc
          exact ⟨h1 c hc, fun w hw2 => hmin c hc w hw2⟩
        · rintro c ⟨hs, hb⟩ hsome
          obtain ⟨u, hu⟩ := Option.isSome_iff_exists.mp hsome
          refine ⟨toList_advance_sorted hu hs, ?_⟩
          intro w hw2
          exact le_trans (hb u hu) (advance_current_ge hu hs hw2)
        · intro hj2
          exact Option.isSome_iff_exists.mpr ⟨v, hcur⟩
      have h1' : ∀ c ∈ advanceAt cursors j, List.Sorted (· ≤ ·) (Cursor.toList c) :=
        fun c hc => (htrans c hc).1
      have hboundv : ∀ c ∈ advanceAt cursors j, ∀ w, c.current = some w → v ≤ w :=
        fun c hc => (htrans c hc).2
      have hvlast : ∀ p, last = some p → p ≤ v := fun p hp =>
        h2 _ hcjmem v hcur p hp
      by_cases hguard : dedup = true ∧ some v = last
      · rw [mergeLoopF_succ_some fuel dedup last hm, if_pos hguard]
        obtain ⟨hd, hvl⟩ := hguard
        have h2'' : ∀ c ∈ advanceAt cursors j, ∀ w, c.current = some w →
            ∀ p, last = some p → p ≤ w := by
          intro c hc w hw2 p hp
          rw [← hvl] at hp
          injection hp with hp
          subst hp
          exact hboundv c hc w hw2
        exact ih (advanceAt cursors j) dedup last hw' h1' h2''
      · rw [mergeLoopF_succ_some fuel dedup last hm, if_neg hguard]
        have h2' : ∀ c ∈ advanceAt cursors j, ∀ w, c.current = some w →
            ∀ p, some v = some p → p ≤ w := by
          intro c hc w hw2 p hp
          injection hp with hp
          subst hp
          exact hboundv c hc w hw2
        obtain ⟨S1, S2, S3⟩ := ih (advanceAt cursors j) dedup (some v) hw' h1' h2'
        refine ⟨?_, ?_, ?_⟩
        · exact List.sorted_cons.mpr ⟨fun b hb => S2 b hb v rfl, S1⟩
        · intro x hx p hp
          rcases List.mem_cons.mp hx with rfl | hx
          · exact hvlast p hp
          · exact le_trans (hvlast p hp) (S2 x hx v rfl)
        · intro hd
          have hvne : some v ≠ last := fun h => hguard ⟨hd, h⟩
          refine ⟨?_, ?_⟩
          · refine List.chain'_cons'.mpr ⟨?_, (S3 hd).1⟩
            intro y hy
            exact (S3 hd).2 y (List.mem_of_mem_head? hy) v rfl
          · intro x hx p hp
            have hple : p ≤ v := hvlast p hp
            have hpv : p < v := by
              rcases lt_or_eq_of_le hple with h | h
              · exact h
              · exact absurd (by rw [← h, ← hp]) hvne
            rcases List.mem_cons.mp hx with rfl | hx
            · exact hpv
            · exact lt_trans hpv ((S3 hd).2 x hx v rfl)

/-! ## The merge loop preserves the records (no dedup) -/

theorem toList_none {c : Cursor} (h : c.current = none) : Cursor.toList c = [] := by
  rw [Cursor.toList, h]

theorem findMinAux_all_none :
    ∀ (cursors : List Cursor) (i : Nat) (best : Option (Nat × Line)),
      (∀ c ∈ cursors, c.current = none) → findMinAux cursors i best = best := by
  intro cursors
  induction cursors with
  | nil => intro i best _; rfl
  | cons c cs ih =>
    intro i best hall
    rw [findMinAux_cons_none cs i best (hall c (List.mem_cons_self _ _))]
    exact ih _ _ fun d hd => hall d (List.mem_cons_of_mem _ hd)

theorem findMin_eq_none {cursors : List Cursor}
    (hall : ∀ c ∈ cursors, c.current = none) : findMin cursors = none :=
  findMinAux_all_none cursors 0 none hall

theorem cursorWeight_zero_current {c : Cursor} (h : cursorWeight c = 0) :
    c.current = none := by
  by_contra hne
  have : c.current.isSome := Option.ne_none_iff_isSome.mp hne
  simp [cursorWeight, this] at h

theorem totalWeight_zero_flatten {cursors : List Cursor}
    (h : totalWeight cursors = 0) : ((cursors.map Cursor.toList).flatten) = [] := by
  rw [List.flatten_eq_nil_iff]
  intro l hl
  obtain ⟨c, hc, rfl⟩ := List.mem_map.mp hl
  refine toList_none (cursorWeight_zero_current ?_)
  have : ∀ x ∈ cursors.map cursorWeight, x = 0 := List.sum_eq_zero_iff.mp h
  exact this _ (List.mem_map_of_mem _ hc)

theorem mergeLoopF_perm_flatten :
    ∀ (fuel : Nat) (cursors : List Cursor) (last : Option Line),
      totalWeight cursors ≤ fuel →
      (mergeLoopF fuel cursors false last).Perm ((cursors.map Cursor.toList).flatten) := by
  intro fuel
  induction fuel with
  | zero =>
    intro cursors last hw
    rw [mergeLoopF_zero, totalWeight_zero_flatten (Nat.le_zero.mp hw)]
  | succ fuel ih =>
    intro cursors last hw
    cases hm : findMin cursors with
    | none =>
      rw [mergeLoopF_succ_none fuel false last hm]
      have : ((cursors.map Cursor.toList).flatten) = [] := by
        rw [List.flatten_eq_nil_iff]
        intro l hl
        obtain ⟨c, hc, rfl⟩ := List.mem_map.mp hl
        exact toList_none (findMin_none hm c hc)
      rw [this]
    | some jv =>
      obtain ⟨j, v⟩ := jv
      obtain ⟨hj, hcur⟩ := findMin_get hm
      rw [mergeLoopF_succ_some fuel false last hm, if_neg (by simp)]
      have hw' : totalWeight (advanceAt cursors j) ≤ fuel := by
        have := totalWeight_advanceAt cursors j hj hcur
        omega
      exact ((ih (advanceAt cursors j) (some v) hw').cons v).trans
        (flatten_advanceAt_perm cursors j hj hcur)

theorem mergeLoopF_subset :
    ∀ (fuel : Nat) (cursors : List Cursor) (dedup : Bool) (last : Option Line),
      ∀ x ∈ mergeLoopF fuel cursors dedup last, ∃ c ∈ cursors, x ∈ Cursor.toList c := by
  intro fuel
  induction fuel with
  | zero => intro cursors dedup last x hx; rw [mergeLoopF_zero] at hx; cases hx
  | succ fuel ih =>
    intro cursors dedup last x hx
    cases hm : findMin cursors with
    | none => rw [mergeLoopF_succ_none fuel dedup last hm] at hx; cases hx
    | some jv =>
      obtain ⟨j, v⟩ := jv
      obtain ⟨hj, hcur⟩ := findMin_get hm
      have step : x ∈ mergeLoopF fuel (advanceAt cursors j) dedup last ∨
          x ∈ mergeLoopF fuel (advanceAt cursors j) dedup (some v) ∨ x = v → _ := id
      have from_rec : ∀ last2, x ∈ mergeLoopF fuel (advanceAt cursors j) dedup last2 →
          ∃ c ∈ cursors, x ∈ Cursor.toList c := by
        intro last2 hx2
        obtain ⟨c2, hc2, hxc2⟩ := ih (advanceAt cursors j) dedup last2 x hx2
        rcases mem_advanceAt cursors j c2 hc2 with hmem | ⟨hj2, rfl⟩
        · exact ⟨c2, hmem, hxc2⟩
        · refine ⟨cursors.get ⟨j, hj2⟩, List.get_mem _ _ _, ?_⟩
          rw [toList_advance_cons (hcur : (cursors.get ⟨j, hj2⟩).current = some v)]
          exact List.mem_cons_of_mem _ hxc2
      rw [mergeLoopF_succ_some fuel dedup last hm] at hx
      by_cases hguard : dedup = true ∧ some v = last
      · rw [if_pos hguard] at hx
        exact from_rec last hx
      · rw [if_neg hguard] at hx
        rcases List.mem_cons.mp hx with rfl | hx
        · refine ⟨cursors.get ⟨j, hj⟩, List.get_mem _ _ _, ?_⟩
          rw [toList_advance_cons hcur]
          exact List.mem_cons_self _ _
        · exact from_rec (some v) hx

theorem totalWeight_pos {cursors : List Cursor} {j : Nat} {v : Line}
    (hj : j < cursors.length) (hcur : (cursors.get ⟨j, hj⟩).current = some v) :
    1 ≤ totalWeight cursors := by
  have hmem : cursorWeight (cursors.get ⟨j, hj⟩) ∈ cursors.map cursorWeight :=
    List.mem_map_of_mem _ (List.get_mem _ _ _)
  have h1 : 1 ≤ cursorWeight (cursors.get ⟨j, hj⟩) := by
    rw [cursorWeight, hcur]
    simp
  exact le_trans h1 (List.single_le_sum (fun x _ => Nat.zero_le x) _ hmem)

theorem mergeRun_ne_nil {chunks : List (List Line)} {dedup : Bool} {j : Nat} {v : Line}
    (hm : findMin (chunks.map primeChunk) = some (j, v)) :
    mergeRun chunks dedup ≠ [] := by
  obtain ⟨hj, hcur⟩ := findMin_get hm
  have hpos := totalWeight_pos hj hcur
  rw [mergeRun]
  obtain ⟨w, hw⟩ : ∃ w, totalWeight (chunks.map primeChunk) = w + 1 :=
    ⟨totalWeight (chunks.map primeChunk) - 1, by omega⟩
  rw [hw, mergeLoopF_succ_some w dedup none hm, if_neg (by simp)]
  simp

/-! ## With distinct records, deduplication changes nothing -/

theorem advanceAt_sorted_bound {cursors : List Cursor} {j : Nat} {v : Line}
    (hj : j < cursors.length) (hcur : (cursors.get ⟨j, hj⟩).current = some v)
    (h1 : ∀ c ∈ cursors, List.Sorted (· ≤ ·) (Cursor.toList c))
    (hmin : ∀ c ∈ cursors, ∀ w, c.current = some w → v ≤ w) :
    ∀ c ∈ advanceAt cursors j,
      List.Sorted (· ≤ ·) (Cursor.toList c) ∧ ∀ w, c.current = some w → v ≤ w := by
  refine forall_advanceAt cursors j ?_ ?_ ?_
  · intro c hc
    exact ⟨h1 c hc, fun w hw2 => hmin c hc w hw2⟩
  · rintro c ⟨hs, hb⟩ hsome
    obtain ⟨u, hu⟩ := Option.isSome_iff_exists.mp hsome
    refine ⟨toList_advance_sorted hu hs, ?_⟩
    intro w hw2
    exact le_trans (hb u hu) (advance_current_ge hu hs hw2)
  · intro hj2
    exact Option.isSome_iff_exists.mpr ⟨v, hcur⟩

theorem toList_mem_ge {c : Cursor} {v x : Line}
    (hs : List.Sorted (· ≤ ·) (Cursor.toList c))
    (hb : ∀ w, c.current = some w → v ≤ w) (hx : x ∈ Cursor.toList c) : v ≤ x := by
  cases hc : c.current with
  | none => rw [toList_none hc] at hx; cases hx
  | some w =>
    rw [toList_advance_cons hc] at hx hs
    rcases List.mem_cons.mp hx with rfl | hx
    · exact hb x hc
    · exact le_trans (hb w hc) ((List.sorted_cons.mp hs).1 x hx)

theorem mergeLoopF_dedup_eq :
    ∀ (fuel : Nat) (cursors : List Cursor) (last : Option Line),
      totalWeight cursors ≤ fuel →
      (∀ c ∈ cursors, List.Sorted (· ≤ ·) (Cursor.toList c)) →
      ((cursors.map Cursor.toList).flatten).Nodup →
      (∀ p, last = some p → ∀ c ∈ cursors, ∀ x ∈ Cursor.toList c, p < x) →
      mergeLoopF fuel cursors true last = mergeLoopF fuel cursors false last := by
  intro fuel
  induction fuel with
  | zero => intro cursors last _ _ _ _; rfl
  | succ fuel ih =>
    intro cursors last hw h1 hnd hlast
    cases hm : findMin cursors with
    | none =>
      rw [mergeLoopF_succ_none fuel true last hm, mergeLoopF_succ_none fuel false last hm]
    | some jv =>
      obtain ⟨j, v⟩ := jv
      obtain ⟨hj, hcur⟩ := findMin_get hm
      have hmin := findMin_min hm
      have hvmem : v ∈ Cursor.toList (cursors.get ⟨j, hj⟩) := by
        rw [toList_advance_cons hcur]
        exact List.mem_cons_self _ _
      have hguard : ¬ (true = true ∧ some v = last) := by
        rintro ⟨-, hvl⟩
        exact absurd (hlast v hvl.symm _ (List.get_mem _ _ _) v hvmem) (lt_irrefl v)
      rw [mergeLoopF_succ_some fuel true last hm, mergeLoopF_succ_some fuel false last hm,
        if_neg hguard, if_neg (by simp)]
      have hw' : totalWeight (advanceAt cursors j) ≤ fuel := by
        have := totalWeight_advanceAt cursors j hj hcur
        omega
      have htrans := advanceAt_sorted_bound hj hcur h1 fun c hc => hmin c hc
      have hperm := flatten_advanceAt_perm cursors j hj hcur
      have hnd' : (v :: ((advanceAt cursors j).map Cursor.toList).flatten).Nodup :=
        (hperm.nodup_iff).mpr hnd
      have hvnot : v ∉ ((advanceAt cursors j).map Cursor.toList).flatten :=
        (List.nodup_cons.mp hnd').1
      congr 1
      refine ih (advanceAt cursors j) (some v) hw' (fun c hc => (htrans c hc).1)
        (List.nodup_cons.mp hnd').2 ?_
      intro p hp c hc x hx
      injection hp with hp
      subst hp
      have hge : v ≤ x := toList_mem_ge (htrans c hc).1 (htrans c hc).2 hx
      have hne : x ≠ v := by
        rintro rfl
        exact hvnot (List.mem_flatten.mpr ⟨Cursor.toList c, List.mem_map_of_mem _ hc, hx⟩)
      exact lt_of_le_of_ne hge (Ne.symm hne)

/-! ## A cursor primed dead never contributes -/

theorem findMinAux_shift :
    ∀ (cursors : List Cursor) (i : Nat) (best : Option (Nat × Line)),
      findMinAux cursors (i + 1) (best.map fun p => (p.1 + 1, p.2)) =
        (findMinAux cursors i best).map fun p => (p.1 + 1, p.2) := by
  intro cursors
  induction cursors with
  | nil => intro i best; rfl
  | cons c cs ih =>
    intro i best
    cases hc : c.current with
    | none =>
      rw [findMinAux_cons_none cs (i + 1) _ hc, findMinAux_cons_none cs i best hc]
      exact ih (i + 1) best
    | some v =>
      cases best with
      | none =>
        show findMinAux (c :: cs) (i + 1) none = _
        rw [findMinAux_cons_some_none cs (i + 1) hc, findMinAux_cons_some_none cs i hc]
        exact ih (i + 1) (some (i, v))
      | some jm =>
        obtain ⟨j, m⟩ := jm
        show findMinAux (c :: cs) (i + 1) (some (j + 1, m)) = _
        rw [findMinAux_cons_some_some cs (i + 1) (j + 1) hc,
          findMinAux_cons_some_some cs i j hc]
        by_cases hv : v < m
        · rw [if_pos hv, if_pos hv]
          exact ih (i + 1) (some (i, v))
        · rw [if_neg hv, if_neg hv]
          exact ih (i + 1) (some (j, m))

theorem findMin_cons_dead {c : Cursor} {cursors : List Cursor}
    (hc : c.current = none) :
    findMin (c :: cursors) = (findMin cursors).map fun p => (p.1 + 1, p.2) := by
  rw [findMin, findMinAux_cons_none cursors 0 none hc, findMin]
  exact findMinAux_shift cursors 0 none

theorem mergeLoopF_cons_dead :
    ∀ (f1 f2 : Nat) (c : Cursor) (cursors : List Cursor) (dedup : Bool)
      (last : Option Line), c.current = none →
      totalWeight (c :: cursors) ≤ f1 → totalWeight cursors ≤ f2 →
      mergeLoopF f1 (c :: cursors) dedup last = mergeLoopF f2 cursors dedup last := by
  intro f1
  induction f1 with
  | zero =>
    intro f2 c cursors dedup last hc hw1 hw2
    have hz : totalWeight (c :: cursors) = 0 := Nat.le_zero.mp hw1
    rw [totalWeight_cons] at hz
    have hz3 : totalWeight cursors = 0 := by omega
    have hall : ∀ d ∈ cursors, d.current = none := by
      intro d hd
      refine cursorWeight_zero_current ?_
      have : ∀ x ∈ cursors.map cursorWeight, x = 0 :=
        List.sum_eq_zero_iff.mp hz3
      exact this _ (List.mem_map_of_mem _ hd)
    rw [mergeLoopF_zero]
    cases f2 with
    | zero => rw [mergeLoopF_zero]
    | succ g2 => rw [mergeLoopF_succ_none g2 dedup last (findMin_eq_none hall)]
  | succ g1 ih =>
    intro f2 c cursors dedup last hc hw1 hw2
    cases hm : findMin cursors with
    | none =>
      have hdead : findMin (c :: cursors) = none := by
        rw [findMin_cons_dead hc, hm]
        rfl
      rw [mergeLoopF_succ_none g1 dedup last hdead]
      cases f2 with
      | zero => rw [mergeLoopF_zero]
      | succ g2 => rw [mergeLoopF_succ_none g2 dedup last hm]
    | some jv =>
      obtain ⟨j, v⟩ := jv
      obtain ⟨hj, hcur⟩ := findMin_get hm
      have hdead : findMin (c :: cursors) = some (j + 1, v) := by
        rw [findMin_cons_dead hc, hm]
        rfl
      have hpos : 1 ≤ totalWeight cursors := totalWeight_pos hj hcur
      cases f2 with
      | zero => omega
      | succ g2 =>
        have hjsucc : j + 1 < (c :: cursors).length := Nat.succ_lt_succ hj
        have hcur2 : ((c :: cursors).get ⟨j + 1, hjsucc⟩).current = some v := hcur
        have hw1' : totalWeight (advanceAt (c :: cursors) (j + 1)) ≤ g1 := by
          have := totalWeight_advanceAt (c :: cursors) (j + 1) hjsucc hcur2
          omega
        have hw2' : totalWeight (advanceAt cursors j) ≤ g2 := by
          have := totalWeight_advanceAt cursors j hj hcur
          omega
        have hadv : advanceAt (c :: cursors) (j + 1) = c :: advanceAt cursors j := rfl
        rw [mergeLoopF_succ_some g1 dedup last hdead,
          mergeLoopF_succ_some g2 dedup last hm]
        by_cases hguard : dedup = true ∧ some v = last
        · rw [if_pos hguard, if_pos hguard, hadv]
          exact ih g2 c (advanceAt cursors j) dedup last hc hw1' hw2'
        · rw [if_neg hguard, if_neg hguard, hadv]
          congr 1
          exact ih g2 c (advanceAt cursors j) dedup (some v) hc hw1' hw2'

/-! ## The sortedness checker accepts sorted clean files -/

theorem isFileSortedLoop_true :
    ∀ (lines : List Line) (n : Nat) (prev : Option Line) (lc mc : Nat),
      (∀ l ∈ lines, CleanLine l) → List.Chain' (· ≤ ·) lines →
      (∀ p, prev = some p → ∀ y ∈ lines.head?, p ≤ y) →
      (isFileSortedLoop lines n prev lc mc).1 = true := by
  intro lines
  induction lines with
  | nil => intro n prev lc mc _ _ _; rfl
  | cons l ls ih =>
    intro n prev lc mc hclean hchain hprev
    have hl : CleanLine l := hclean l (List.mem_cons_self _ _)
    have hnext : ∀ p, some (pyStrip l) = some p → ∀ y ∈ ls.head?, p ≤ y := by
      intro p hp y hy
      injection hp with hp
      subst hp
      rw [hl.1]
      exact (List.chain'_cons'.mp hchain).1 y hy
    have hrec := ih (n + 1) (some (pyStrip l)) n mc
      (fun x hx => hclean x (List.mem_cons_of_mem _ hx))
      (List.chain'_cons'.mp hchain).2 hnext
    by_cases hn : n > mc
    · rw [isFileSortedLoop.eq_def]
      simp only [if_pos hn]
    · cases hp : prev with
      | none =>
        show (if n > mc then (true, lc)
          else isFileSortedLoop ls (n + 1) (some (pyStrip l)) n mc).1 = true
        rw [if_neg hn]
        exact hrec
      | some p =>
        have hple : p ≤ pyStrip l := by
          rw [hl.1]
          exact hprev p hp l rfl
        show (if n > mc then (true, lc)
          else if pyStrip l < p then ((false : Bool), n)
          else isFileSortedLoop ls (n + 1) (some (pyStrip l)) n mc).1 = true
        rw [if_neg hn, if_neg (not_lt.mpr hple)]
        exact hrec

/-! ## Corollaries at the level of `_merge_chunks` -/

theorem mergeRun_inv {chunks : List (List Line)} (dedup : Bool)
    (hs : ∀ c ∈ chunks, List.Sorted (· ≤ ·) c)
    (hcl : ∀ c ∈ chunks, ∀ x ∈ c, CleanLine x) :
    List.Sorted (· ≤ ·) (mergeRun chunks dedup) ∧
      (dedup = true → List.Chain' (· < ·) (mergeRun chunks dedup)) := by
  have h1 : ∀ c ∈ chunks.map primeChunk, List.Sorted (· ≤ ·) (Cursor.toList c) := by
    intro c hc
    obtain ⟨chunk, hchunk, rfl⟩ := List.mem_map.mp hc
    rw [primeChunk_toList_clean (hcl chunk hchunk)]
    exact hs chunk hchunk
  have h2 : ∀ c ∈ chunks.map primeChunk, ∀ w, c.current = some w →
      ∀ p, (none : Option Line) = some p → p ≤ w := by
    intro c _ w _ p hp
    cases hp
  obtain ⟨S1, -, S3⟩ :=
    mergeLoopF_invariant (totalWeight (chunks.map primeChunk))
      (chunks.map primeChunk) dedup none (le_refl _) h1 h2
  exact ⟨S1, fun hd => (S3 hd).1⟩

theorem mergeRun_clean {chunks : List (List Line)} {dedup : Bool}
    (hcl : ∀ c ∈ chunks, ∀ x ∈ c, CleanLine x) :
    ∀ x ∈ mergeRun chunks dedup, CleanLine x := by
  intro x hx
  obtain ⟨c, hc, hxc⟩ := mergeLoopF_subset _ _ dedup none x hx
  obtain ⟨chunk, hchunk, rfl⟩ := List.mem_map.mp hc
  rw [primeChunk_toList_clean (hcl chunk hchunk)] at hxc
  exact hcl chunk hchunk x hxc

theorem map_toList_primeChunk :
    ∀ {chunks : List (List Line)}, (∀ c ∈ chunks, ∀ x ∈ c, CleanLine x) →
      chunks.map (Cursor.toList ∘ primeChunk) = chunks := by
  intro chunks
  induction chunks with
  | nil => intro _; rfl
  | cons c cs ih =>
    intro hcl
    simp only [List.map_cons]
    rw [ih fun d hd x hx => hcl d (List.mem_cons_of_mem _ hd) x hx]
    congr 1
    exact primeChunk_toList_clean (hcl c (List.mem_cons_self _ _))

theorem mergeRun_perm_flatten {chunks : List (List Line)}
    (hcl : ∀ c ∈ chunks, ∀ x ∈ c, CleanLine x) :
    (mergeRun chunks false).Perm chunks.flatten := by
  have h := mergeLoopF_perm_flatten (totalWeight (chunks.map primeChunk))
    (chunks.map primeChunk) none (le_refl _)
  rw [List.map_map, map_toList_primeChunk hcl] at h
  exact h

theorem spill_pos {input : List Line} {cs : Nat}
    (h : spillBatches input cs ≠ []) : 0 < cs := by
  by_contra h0
  have hcs : cs = 0 := by omega
  subst hcs
  refine h ?_
  rw [spillBatches, spillBatchesF]
  rw [readBatch_stop input (by omega)]
  simp

theorem primeChunk_current_some {c : List Line}
    (hcl : ∀ x ∈ c, CleanLine x) (hne : c ≠ []) :
    ∃ v, (primeChunk c).current = some v := by
  cases c with
  | nil => exact absurd rfl hne
  | cons l ls =>
    have hl := hcl l (List.mem_cons_self _ _)
    rw [primeChunk, if_neg (by rw [hl.1]; exact hl.2)]
    exact ⟨pyStrip l, rfl⟩

theorem mergeRun_ne_nil_of_clean {chunks : List (List Line)} {dedup : Bool}
    (hne : chunks ≠ []) (hcl : ∀ c ∈ chunks, ∀ x ∈ c, CleanLine x)
    (hcne : ∀ c ∈ chunks, c ≠ []) : mergeRun chunks dedup ≠ [] := by
  obtain ⟨c0, rest, rfl⟩ := List.exists_cons_of_ne_nil hne
  obtain ⟨v, hv⟩ := primeChunk_current_some (hcl c0 (List.mem_cons_self _ _))
    (hcne c0 (List.mem_cons_self _ _))
  cases hm : findMin ((c0 :: rest).map primeChunk) with
  | none =>
    have := findMin_none hm (primeChunk c0)
      (List.mem_map_of_mem _ (List.mem_cons_self _ _))
    rw [hv] at this
    cases this
  | some jv =>
    obtain ⟨j, w⟩ := jv
    exact mergeRun_ne_nil hm

/-! ## Auto-verification -/

theorem resorted_output_verifies {lines : List Line} {cs : Nat} {newLines : List Line}
    (h : externalSortNV lines cs false none = some newLines) :
    (isFileSorted (some newLines) bigCap).1 = true := by
  unfold externalSortNV at h
  cases hmc : mergeChunksFile (createSortedChunks lines cs) false with
  | none => rw [hmc] at h; cases h
  | some out =>
    rw [hmc] at h
    injection h with h
    subst h
    unfold mergeChunksFile at hmc
    by_cases hnil : createSortedChunks lines cs = []
    · rw [if_pos hnil] at hmc; cases hmc
    · rw [if_neg hnil] at hmc
      injection hmc with hmc
      subst hmc
      have hsorted := (@mergeRun_inv (createSortedChunks lines cs) false
        chunks_sorted chunks_clean).1
      have hclean := @mergeRun_clean (createSortedChunks lines cs) false chunks_clean
      show (isFileSortedLoop (mergeRun (createSortedChunks lines cs) false)
        1 none 0 bigCap).1 = true
      exact isFileSortedLoop_true _ 1 none 0 bigCap hclean hsorted.chain'
        fun p hp => by cases hp

theorem autoVerifySorting_eq_resort {lines0 : List Line} {cs : Nat}
    (hsort : ¬ (isFileSorted (some lines0) bigCap).1 = true) :
    autoVerifySorting (some lines0) cs =
      match externalSortNV lines0 cs false none with
      | none => ⟨none, 1, false, false⟩
      | some newLines =>
        ⟨some newLines, 1, !(isFileSorted (some newLines) bigCap).1, false⟩ := by
  unfold autoVerifySorting
  rw [if_neg hsort]

theorem autoVerifySorting_spec (outFile : Option (List Line)) (cs : Nat) :
    (autoVerifySorting outFile cs).resorts ≤ 1 ∧
    (autoVerifySorting outFile cs).stillUnsortedError = false ∧
    ((isFileSorted outFile bigCap).1 = false →
      (autoVerifySorting outFile cs).resorts = 1 ∧
      ∀ lines, outFile = some lines →
        (autoVerifySorting outFile cs).output = externalSortNV lines cs false none) := by
  by_cases hsort : (isFileSorted outFile bigCap).1 = true
  · have hres : autoVerifySorting outFile cs = ⟨outFile, 0, false, false⟩ := by
      unfold autoVerifySorting
      rw [if_pos hsort]
    rw [hres]
    exact ⟨Nat.zero_le 1, rfl, fun hf => absurd hsort (by simp [hf])⟩
  · cases outFile with
    | none =>
      have hres : autoVerifySorting none cs = ⟨none, 1, false, true⟩ := by
        unfold autoVerifySorting
        rw [if_neg hsort]
      rw [hres]
      exact ⟨le_refl 1, rfl, fun _ => ⟨rfl, fun lines hl => by cases hl⟩⟩
    | some lines0 =>
      rw [autoVerifySorting_eq_resort hsort]
      cases hnv : externalSortNV lines0 cs false none with
      | none =>
        refine ⟨le_refl 1, rfl, fun _ => ⟨rfl, ?_⟩⟩
        intro lines hl
        injection hl with hl
        subst hl
        rw [hnv]
      | some newLines =>
        refine ⟨le_refl 1, ?_, fun _ => ⟨rfl, ?_⟩⟩
        · show (!(isFileSorted (some newLines) bigCap).1) = false
          rw [resorted_output_verifies hnv]
          rfl
        · intro lines hl
          injection hl with hl
          subst hl
          rw [hnv]

theorem externalSort_eq_verify (input : List Line) (prev : Option (List Line))
    (cs : Nat) (dedup : Bool)
    (h : ¬ (prev.isSome = true ∧ (isFileSorted prev bigCap).1 = true)) :
    externalSort input prev cs dedup true =
      ⟨(autoVerifySorting (externalSortNV input cs dedup prev) cs).output,
        (createSortedChunks input cs).length, false,
        (autoVerifySorting (externalSortNV input cs dedup prev) cs).resorts,
        (autoVerifySorting (externalSortNV input cs dedup prev) cs).stillUnsortedError,
        (autoVerifySorting (externalSortNV input cs dedup prev) cs).crashed⟩ := by
  unfold externalSort
  rw [if_neg fun hc => h ⟨hc.2.1, hc.2.2⟩]
  rfl

/-! ## Claim theorems -/

/-- C1: for every input, the file produced by `_merge_chunks` over the
spiller's chunks (which are internally sorted and clean by construction) is
globally non-decreasing under lexicographic line comparison, and with
`deduplicate` on, consecutive output records are strictly increasing. -/
theorem merge_output_sorted (input : List Line) (cs : Nat) (dedup : Bool)
    (out : List Line)
    (h : mergeChunksFile (createSortedChunks input cs) dedup = some out) :
    List.Sorted (· ≤ ·) out ∧ (dedup = true → List.Chain' (· < ·) out) := by
  unfold mergeChunksFile at h
  by_cases hnil : createSortedChunks input cs = []
  · rw [if_pos hnil] at h; cases h
  · rw [if_neg hnil] at h
    injection h with h
    rw [← h]
    exact @mergeRun_inv (createSortedChunks input cs) dedup
      (@chunks_sorted input cs) (@chunks_clean input cs)

/-- Witness for C1 at the concrete input `["b", "a", "a"]`. -/
theorem merge_output_sorted_witness :
    List.Sorted (· ≤ ·) [lineOf "a", lineOf "b"] ∧
      (true = true → List.Chain' (· < ·) [lineOf "a", lineOf "b"]) :=
  merge_output_sorted [lineOf "b", lineOf "a", lineOf "a"] 5 true
    [lineOf "a", lineOf "b"] (by decide)

/-- C2: with deduplication disabled, for every cleaned input (no empty lines,
no surrounding whitespace) and positive chunk size, the multiset of merged
output lines equals the multiset of input lines. -/
theorem merge_preserves_multiset (input : List Line) (cs : Nat)
    (h0 : 0 < cs) (hclean : ∀ l ∈ input, CleanLine l) :
    ((mergeChunksFile (createSortedChunks input cs) false).getD []).Perm input := by
  unfold mergeChunksFile
  by_cases hnil : createSortedChunks input cs = []
  · rw [if_pos hnil]
    have hsb : spillBatches input cs = [] := by
      unfold createSortedChunks at hnil
      exact List.map_eq_nil_iff.mp hnil
    have hin : input = [] := by
      have hf := spillBatches_flatten_clean h0 hclean
      rw [hsb] at hf
      exact hf.symm
    rw [hin]
    exact List.Perm.refl _
  · rw [if_neg hnil]
    show (mergeRun (createSortedChunks input cs) false).Perm input
    exact (mergeRun_perm_flatten (@chunks_clean input cs)).trans
      (chunks_flatten_perm h0 hclean)

/-- Witness for C2 at the concrete input `["b", "a", "a", "c"]` with chunk
size 1 (three chunks). -/
theorem merge_preserves_multiset_witness :
    ((mergeChunksFile
        (createSortedChunks [lineOf "b", lineOf "a", lineOf "a", lineOf "c"] 1)
        false).getD []).Perm [lineOf "b", lineOf "a", lineOf "a", lineOf "c"] :=
  merge_preserves_multiset [lineOf "b", lineOf "a", lineOf "a", lineOf "c"] 1
    (by decide) (by decide)

/-- C3 counterexample: with `memory_limit_bytes = 2` (hence
`chunk_size = 1`), the single line `"abcd"` is buffered as a batch of 4
encoded bytes, exceeding the configured budget: the loop tests the size
bound before reading, not after. -/
theorem spill_batch_exceeds_budget :
    spillBatches [lineOf "abcd"] (chunkSizeOf 2) = [[lineOf "abcd"]] ∧
      batchBytes [lineOf "abcd"] = 4 ∧ ¬ batchBytes [lineOf "abcd"] ≤ 2 := by
  decide

/-- C3 amended: a batch can overrun only via its final line: for every
batch buffered by `_create_sorted_chunks`, the cumulative encoded byte size
of all lines except the last stays strictly below
`chunk_size = memory_limit_bytes // 2`. -/
theorem spill_batch_bytes_bound (input : List Line) (budget : Nat)
    (b : List Line) (hb : b ∈ spillBatches input (chunkSizeOf budget)) :
    batchBytes b.dropLast < chunkSizeOf budget :=
  spillBatchesF_dropLast_bytes _ input _ b hb

/-- Witness for the amended C3 at budget 4 and input `["ab"]`. -/
theorem spill_batch_bytes_bound_witness :
    batchBytes ([lineOf "ab"] : List Line).dropLast < chunkSizeOf 4 :=
  spill_batch_bytes_bound [lineOf "ab"] 4 [lineOf "ab"] (by decide)

/-- C4: with auto-verification on, `external_sort` starts at most one
re-sort; the final "still not sorted" error is provably never reported (one
re-sort always yields a verifiably sorted file, so the fatal branch of the
claim is vacuous); and whenever the merged output fails verification (and
the already-sorted shortcut did not fire), exactly one re-sort runs and the
resulting output file is the deduplication-disabled re-sort of the unsorted
content. -/
theorem externalSort_resorts_once (input : List Line) (prev : Option (List Line))
    (cs : Nat) (dedup : Bool) :
    (externalSort input prev cs dedup true).resorts ≤ 1 ∧
    (externalSort input prev cs dedup true).stillUnsortedError = false ∧
    (¬ (prev.isSome = true ∧ (isFileSorted prev bigCap).1 = true) →
      (isFileSorted (externalSortNV input cs dedup prev) bigCap).1 = false →
      (externalSort input prev cs dedup true).resorts = 1 ∧
      ∀ lines, externalSortNV input cs dedup prev = some lines →
        (externalSort input prev cs dedup true).output =
          externalSortNV lines cs false none) := by
  by_cases hshort : prev.isSome = true ∧ (isFileSorted prev bigCap).1 = true
  · have hres : externalSort input prev cs dedup true =
        ⟨prev, 0, true, 0, false, false⟩ := by
      unfold externalSort
      rw [if_pos ⟨rfl, hshort.1, hshort.2⟩]
    rw [hres]
    exact ⟨Nat.zero_le 1, rfl, fun hns => absurd hshort hns⟩
  · rw [externalSort_eq_verify input prev cs dedup hshort]
    obtain ⟨A1, A2, A3⟩ := autoVerifySorting_spec (externalSortNV input cs dedup prev) cs
    exact ⟨A1, A2, fun _ hf => A3 hf⟩

/-- Witness for C4: an existing unsorted output `["b", "a"]` with an empty
input triggers exactly one deduplication-disabled re-sort. -/
theorem externalSort_resorts_once_witness :
    (externalSort [] (some [lineOf "b", lineOf "a"]) 1 true true).resorts = 1 ∧
    (externalSort [] (some [lineOf "b", lineOf "a"]) 1 true true).output =
      externalSortNV [lineOf "b", lineOf "a"] 1 false none := by
  obtain ⟨-, -, h3⟩ :=
    externalSort_resorts_once [] (some [lineOf "b", lineOf "a"]) 1 true
  obtain ⟨hr, hout⟩ := h3 (by decide) (by decide)
  exact ⟨hr, hout [lineOf "b", lineOf "a"] (by decide)⟩

/-- C5: with deduplication enabled both times, the spill-merge pipeline is
idempotent: whenever it produces an output file, re-running it on that
output reproduces the file byte for byte. -/
theorem sortAndDedup_idempotent (input : List Line) (cs : Nat) (out : List Line)
    (h : sortAndDedup input cs = some out) : sortAndDedup out cs = some out := by
  unfold sortAndDedup mergeChunksFile at h
  by_cases hnil : createSortedChunks input cs = []
  · rw [if_pos hnil] at h; cases h
  · rw [if_neg hnil] at h
    injection h with h
    have hsort1 := @mergeRun_inv (createSortedChunks input cs) true
      (@chunks_sorted input cs) (@chunks_clean input cs)
    have hchain : List.Chain' (· < ·) out := by rw [← h]; exact hsort1.2 rfl
    have hsle : List.Sorted (· ≤ ·) out := by rw [← h]; exact hsort1.1
    have hpair : List.Pairwise (· < ·) out := List.chain'_iff_pairwise.mp hchain
    have hnd : out.Nodup := hpair.imp ne_of_lt
    have hclean_out : ∀ x ∈ out, CleanLine x := by
      rw [← h]
      exact @mergeRun_clean (createSortedChunks input cs) true (@chunks_clean input cs)
    have hout_ne : out ≠ [] := by
      rw [← h]
      exact mergeRun_ne_nil_of_clean hnil (@chunks_clean input cs)
        (@chunks_nonempty input cs)
    have hcs : 0 < cs := by
      refine @spill_pos input cs ?_
      intro hsb
      refine hnil ?_
      unfold createSortedChunks
      rw [hsb]
      rfl
    have hflat2 : (spillBatches out cs).flatten = out :=
      spillBatches_flatten_clean hcs hclean_out
    have hsorted_b : ∀ b ∈ spillBatches out cs, List.Sorted (· ≤ ·) b := by
      intro b hb
      have hsub : b.Sublist out := by
        rw [← hflat2]
        exact List.sublist_flatten_of_mem hb
      exact List.Pairwise.sublist hsub hsle
    have hchunks2 : createSortedChunks out cs = spillBatches out cs := by
      unfold createSortedChunks
      rw [List.map_congr_left fun b hb => sortLines_eq_self (hsorted_b b hb)]
      exact List.map_id _
    have hflat2x : (createSortedChunks out cs).flatten = out := by
      rw [hchunks2, hflat2]
    have hne2 : createSortedChunks out cs ≠ [] := by
      intro hc2
      rw [hc2] at hflat2x
      exact hout_ne hflat2x.symm
    have hcl2 : ∀ c ∈ createSortedChunks out cs, ∀ x ∈ c, CleanLine x :=
      @chunks_clean out cs
    have h1 : ∀ c ∈ (createSortedChunks out cs).map primeChunk,
        List.Sorted (· ≤ ·) (Cursor.toList c) := by
      intro c hc
      obtain ⟨chunk, hchunk, rfl⟩ := List.mem_map.mp hc
      rw [primeChunk_toList_clean (hcl2 chunk hchunk)]
      exact @chunks_sorted out cs chunk hchunk
    have hndflat :
        ((((createSortedChunks out cs).map primeChunk).map Cursor.toList).flatten).Nodup := by
      rw [List.map_map, map_toList_primeChunk hcl2, hflat2x]
      exact hnd
    have hdedup_eq : mergeRun (createSortedChunks out cs) true =
        mergeRun (createSortedChunks out cs) false := by
      unfold mergeRun
      exact mergeLoopF_dedup_eq _ _ none (le_refl _) h1 hndflat fun p hp => by cases hp
    have hperm : (mergeRun (createSortedChunks out cs) false).Perm out := by
      have hp := mergeRun_perm_flatten hcl2
      rwa [hflat2x] at hp
    have hsle2 : List.Sorted (· ≤ ·) (mergeRun (createSortedChunks out cs) false) :=
      (@mergeRun_inv (createSortedChunks out cs) false (@chunks_sorted out cs) hcl2).1
    have hfinal : mergeRun (createSortedChunks out cs) false = out :=
      List.eq_of_perm_of_sorted hperm hsle2 hsle
    unfold sortAndDedup mergeChunksFile
    rw [if_neg hne2, hdedup_eq, hfinal]

/-- Witness for C5 at the concrete input `["b", "a", "a", "c"]`. -/
theorem sortAndDedup_idempotent_witness :
    sortAndDedup [lineOf "a", lineOf "b", lineOf "c"] 1 =
      some [lineOf "a", lineOf "b", lineOf "c"] :=
  sortAndDedup_idempotent [lineOf "b", lineOf "a", lineOf "a", lineOf "c"] 1
    [lineOf "a", lineOf "b", lineOf "c"] (by decide)

/-- C6 counterexample: for an empty input file the spiller returns zero
chunks, but `_merge_chunks` returns before opening the output path, so no
output file is created at all (in particular no empty one), and verifying
the resulting state reports not-sorted rather than sorted-with-0-lines;
moreover with auto-verify on, the doomed re-sort of the missing output
raises an uncaught `FileNotFoundError`. -/
theorem empty_input_no_output_file :
    createSortedChunks [] 4 = [] ∧
      (externalSort [] none 4 true false).output = none ∧
      (externalSort [] none 4 true false).output ≠ some [] ∧
      isFileSorted (externalSort [] none 4 true false).output bigCap = (false, 0) ∧
      (externalSort [] none 4 true true).crashed = true := by
  decide

/-- C6 amended: for an empty input the spiller returns zero chunks and the
merge writes nothing (the output path keeps its previous state -- here no
file); `is_file_sorted` on an existing empty file would report sorted with
0 lines checked, but on the missing output it reports not-sorted with 0
lines, and with auto-verify on the call crashes. -/
theorem empty_input_zero_chunks (cs : Nat) (dedup : Bool) :
    createSortedChunks [] cs = [] ∧
      (externalSort [] none cs dedup false).output = none ∧
      (externalSort [] none cs dedup true).crashed = true ∧
      isFileSorted (some []) bigCap = (true, 0) ∧
      isFileSorted none bigCap = (false, 0) := by
  have hchunks : createSortedChunks [] cs = [] := by
    unfold createSortedChunks spillBatches
    show (spillBatchesF (0 + 1) [] cs).map sortLines = []
    rw [spillBatchesF, readBatch_nil]
    rfl
  have hnv : ∀ d : Bool, externalSortNV [] cs d none = none := by
    intro d
    unfold externalSortNV mergeChunksFile
    rw [hchunks, if_pos rfl]
  have hout : (externalSort [] none cs dedup false).output = none := by
    unfold externalSort
    rw [if_neg (by rintro ⟨h, -⟩; cases h)]
    show externalSortNV [] cs dedup none = none
    exact hnv dedup
  have hcrash : (externalSort [] none cs dedup true).crashed = true := by
    rw [externalSort_eq_verify [] none cs dedup (by rintro ⟨h, -⟩; cases h)]
    show (autoVerifySorting (externalSortNV [] cs dedup none) cs).crashed = true
    rw [hnv dedup]
    rfl
  exact ⟨hchunks, hout, hcrash, rfl, rfl⟩

/-- C7: if the output path already holds a file that passes the sortedness
verification and auto-verify is on, `external_sort` skips the whole
pipeline: the output file is unchanged, no chunk is created, no re-sort
happens. -/
theorem externalSort_shortcut (input content : List Line) (cs : Nat)
    (dedup : Bool) (h : (isFileSorted (some content) bigCap).1 = true) :
    externalSort input (some content) cs dedup true =
      ⟨some content, 0, true, 0, false, false⟩ := by
  unfold externalSort
  rw [if_pos ⟨rfl, rfl, h⟩]

/-- Witness for C7 with the sorted existing output `["a", "b"]`. -/
theorem externalSort_shortcut_witness :
    externalSort [lineOf "z"] (some [lineOf "a", lineOf "b"]) 3 true true =
      ⟨some [lineOf "a", lineOf "b"], 0, true, 0, false, false⟩ :=
  externalSort_shortcut [lineOf "z"] [lineOf "a", lineOf "b"] 3 true (by decide)

/-- C8 counterexample: with the spec-legal positive budget of 1 byte,
`chunk_size = 1 // 2 = 0`, and the single clean line `"ab"` -- whose
encoded size 2 exceeds the budget -- is silently dropped: the spiller
emits no chunk at all instead of a one-record chunk. -/
theorem oversized_line_dropped :
    createSortedChunks [lineOf "ab"] (chunkSizeOf 1) = [] ∧
      1 < utf8Len (lineOf "ab") ∧ CleanLine (lineOf "ab") := by
  decide

/-- C8 amended: provided `chunk_size = memory_limit_bytes // 2` is
positive, a single clean input line whose encoded size exceeds the budget
is still spilled whole as a one-record chunk. -/
theorem oversized_line_single_chunk (l : Line) (budget : Nat)
    (h0 : 0 < chunkSizeOf budget) (hcl : CleanLine l)
    (_hbig : budget < utf8Len l) :
    createSortedChunks [l] (chunkSizeOf budget) = [[l]] := by
  have h1 : readBatch [l] 0 (chunkSizeOf budget) = ([l], []) := by
    rw [readBatch_cons l [] h0, if_neg (by rw [hcl.1]; exact hcl.2), hcl.1,
      readBatch_nil]
  have h3 : spillBatchesF 1 ([] : List Line) (chunkSizeOf budget) = [] := by
    rw [spillBatchesF, readBatch_nil]
    rfl
  have h2 : spillBatchesF 2 [l] (chunkSizeOf budget) = [[l]] := by
    rw [spillBatchesF, h1]
    rw [if_neg (by simp)]
    rw [h3]
  unfold createSortedChunks spillBatches
  show (spillBatchesF 2 [l] (chunkSizeOf budget)).map sortLines = [[l]]
  rw [h2]
  rfl

/-- Witness for the amended C8: a 3-byte line against a 2-byte budget. -/
theorem oversized_line_single_chunk_witness :
    createSortedChunks [lineOf "abc"] (chunkSizeOf 2) = [[lineOf "abc"]] :=
  oversized_line_single_chunk (lineOf "abc") 2 (by decide) (by decide) (by decide)

/-- C9: every record the merge emits is the stripped form of some chunk
line, and a chunk whose first line strips to the empty string is marked
exhausted at priming time, so its entire contents (later non-empty lines
included) are silently omitted: merging it alongside other chunks gives
exactly the merge of the other chunks. -/
theorem merge_skips_blank_primed_chunk (l : Line) (tail : List Line)
    (others : List (List Line)) (dedup : Bool) (hl : pyStrip l = []) :
    mergeChunksFile ((l :: tail) :: others) dedup = some (mergeRun others dedup) ∧
    (∀ chunks out, mergeChunksFile chunks dedup = some out →
      ∀ x ∈ out, ∃ raw ∈ chunks.flatten, x = pyStrip raw) := by
  constructor
  · unfold mergeChunksFile
    rw [if_neg (by simp)]
    congr 1
    have hprime : primeChunk (l :: tail) = ⟨none, tail⟩ := by
      rw [primeChunk, if_pos hl]
    show mergeLoopF (totalWeight (((l :: tail) :: others).map primeChunk))
      (((l :: tail) :: others).map primeChunk) dedup none = mergeRun others dedup
    rw [List.map_cons, hprime]
    exact mergeLoopF_cons_dead _ _ ⟨none, tail⟩ (others.map primeChunk) dedup none
      rfl (le_refl _) (le_refl _)
  · intro chunks out h x hx
    unfold mergeChunksFile at h
    by_cases hnil : chunks = []
    · rw [if_pos hnil] at h; cases h
    · rw [if_neg hnil] at h
      injection h with h
      rw [← h] at hx
      obtain ⟨c, hc, hxc⟩ := mergeLoopF_subset _ _ dedup none x hx
      obtain ⟨chunk, hchunk, rfl⟩ := List.mem_map.mp hc
      obtain ⟨raw, hraw, rfl⟩ := primeChunk_toList_subset x hxc
      exact ⟨raw, List.mem_flatten.mpr ⟨chunk, hchunk, hraw⟩, rfl⟩

/-- Witness for C9: the chunk `[" ", "zz"]` primes dead, so `"zz"` is lost
and the merge equals the merge of the remaining chunk `["a"]`. -/
theorem merge_skips_blank_primed_chunk_witness :
    mergeChunksFile ([lineOf " ", lineOf "zz"] :: [[lineOf "a"]]) false =
      some (mergeRun [[lineOf "a"]] false) :=
  (merge_skips_blank_primed_chunk (lineOf " ") [lineOf "zz"] [[lineOf "a"]]
    false (by decide)).1

/-- C10: `is_file_sorted` reports a missing file as `(False, 0)` -- not
sorted, zero lines checked -- for any `max_check_lines`, whereas an
existing empty file is reported `(True, 0)` -- sorted, zero lines checked. -/
theorem isFileSorted_missing_vs_empty (maxCheck : Nat) :
    isFileSorted none maxCheck = (false, 0) ∧
      isFileSorted (some []) maxCheck = (true, 0) :=
  ⟨rfl, rfl⟩

end DupRemoval
